import Mathlib

/-!
# Verification of gdrive_download.py

A shallow embedding of the recursive folder-traversal-and-download engine of
the Google Drive CLI (gdrive_download.py), together with theorems settling the
spec claims about it.

Modelling conventions:
* Python integers are `Int` (arbitrary precision); byte contents are `List Nat`.
* Wall-clock-dependent quantities (`time.time() - start_time`) are passed as an
  explicit `elapsed : ℚ` argument; Python floats on the values involved are
  modelled by `ℚ`.
* Network effects are passed in explicitly: a paginated listing call is a trace
  of per-page responses, a chunked transfer is a trace of per-chunk outcomes,
  and metadata lookups are functions in a `DlEnv` record.  `Except.error`
  models a raised exception.
* Filesystem effects of one download are the three locations it touches:
  whether the output directory exists, the file at the final path, and the file
  at the temporary path.
-/

set_option linter.unusedVariables false

/-! ## ProgressTracker (gdrive_download.py lines 22-127)

The display-only fields `quiet` / `no_progress` and the lock are omitted: the
lock serialises the updates modelled here as pure state transitions, and the
flags only gate printing.  `start_time` is replaced by the explicit `elapsed`
argument of `get_speed` / `get_eta`. -/

structure ProgressTracker where
  total_files : Nat
  completed_files : Nat
  current_file : String
  current_file_size : Int
  current_downloaded : Int
  total_bytes : Int
  downloaded_bytes : Int
deriving DecidableEq

/-- `ProgressTracker.__init__(total_files, ...)`: every counter starts at 0. -/
def mkTracker (total_files : Nat) : ProgressTracker :=
  ⟨total_files, 0, "", 0, 0, 0, 0⟩

/-- `ProgressTracker.update_file` (lines 36-42): records the current file and
its clamped size; a positive declared size is added to `total_bytes`. -/
def update_file (tr : ProgressTracker) (filename : String) (file_size : Int) :
    ProgressTracker :=
  { tr with
    current_file := filename
    current_file_size := max 0 file_size
    current_downloaded := 0
    total_bytes := if 0 < file_size then tr.total_bytes + file_size else tr.total_bytes }

/-- `ProgressTracker.update_progress` (lines 44-52): a report is accepted only
when `0 ≤ downloaded ≤ current_file_size`; the new value is recorded and only a
positive delta versus the previous value is added to `downloaded_bytes`. -/
def update_progress (tr : ProgressTracker) (downloaded : Int) : ProgressTracker :=
  if 0 ≤ downloaded ∧ downloaded ≤ tr.current_file_size then
    { tr with
      current_downloaded := downloaded
      downloaded_bytes :=
        if tr.current_downloaded < downloaded then
          tr.downloaded_bytes + (downloaded - tr.current_downloaded)
        else
          tr.downloaded_bytes }
  else
    tr

/-- `ProgressTracker.complete_file` (lines 54-56). -/
def complete_file (tr : ProgressTracker) : ProgressTracker :=
  { tr with completed_files := tr.completed_files + 1 }

/-- One synchronized mutation of the tracker, for stating properties of every
sequence of calls on it. -/
inductive TrackerOp where
  | upFile (filename : String) (file_size : Int)
  | upProg (downloaded : Int)
  | completeOne

def applyOp (tr : ProgressTracker) : TrackerOp → ProgressTracker
  | .upFile n s => update_file tr n s
  | .upProg d => update_progress tr d
  | .completeOne => complete_file tr

def applyOps (tr : ProgressTracker) (ops : List TrackerOp) : ProgressTracker :=
  ops.foldl applyOp tr

/-- `ProgressTracker.get_speed` (lines 59-63): `downloaded_bytes / elapsed`,
but 0 whenever `elapsed > 1` fails. -/
def get_speed (tr : ProgressTracker) (elapsed : ℚ) : ℚ :=
  if 1 < elapsed then (tr.downloaded_bytes : ℚ) / elapsed else 0

/-- `ProgressTracker.get_eta` (lines 65-81), up to string formatting: `none`
models the `"--"` unknown marker; `some q` models the remaining seconds that
lines 71-80 then render by magnitude. -/
def get_eta (tr : ProgressTracker) (elapsed : ℚ) : Option ℚ :=
  if 0 < get_speed tr elapsed ∧ 0 < tr.total_bytes then
    some (max 0 ((tr.total_bytes : ℚ) - (tr.downloaded_bytes : ℚ)) / get_speed tr elapsed)
  else
    none

/-! ## Name sanitization (`GDrive.sanitize_name`, lines 235-246) -/

/-- The characters removed by line 237. -/
def forbiddenChars : List Char := ['<', '>', ':', '"', '/', '\\', '|', '?', '*']

/-- Line 237-238: each forbidden character becomes an underscore.  The source
performs nine sequential `str.replace` passes; since the replacement character
is never itself forbidden, their composition is this single character map. -/
def replaceForbidden (l : List Char) : List Char :=
  l.map fun c => if c ∈ forbiddenChars then '_' else c

/-- The ASCII whitespace matched by Python's `str.strip()` and `\s` (the
embedding restricts names to ASCII characters). -/
def isPySpace (c : Char) : Bool :=
  c == ' ' || c == '\t' || c == '\n' || c == '\r' || c == '\x0b' || c == '\x0c'

/-- The characters removed from the right by `rstrip('. ')` on line 244. -/
def isDotOrSpace (c : Char) : Bool := c == '.' || c == ' '

/-- Python's `rstrip` over an arbitrary character class: drop the longest
suffix of characters satisfying `q`. -/
def rstripChars (q : Char → Bool) : List Char → List Char
  | [] => []
  | c :: rest =>
      if (rstripChars q rest).isEmpty && q c then [] else c :: rstripChars q rest

/-- `re.sub(r'\s+', ' ', -)` on line 241: every maximal run of whitespace
becomes a single space.  `inRun` records whether the previous character was
part of a whitespace run whose single replacement space was already emitted. -/
def collapseAux : Bool → List Char → List Char
  | _, [] => []
  | inRun, c :: rest =>
      if isPySpace c then
        if inRun then collapseAux true rest else ' ' :: collapseAux true rest
      else
        c :: collapseAux false rest

/-- `GDrive.sanitize_name` on the character list of the name: forbidden
characters replaced (line 237-238), `strip()` then whitespace-run collapse
(line 241), and `rstrip('. ')` (line 244). -/
def sanitizeChars (l : List Char) : List Char :=
  rstripChars isDotOrSpace
    (collapseAux false
      (rstripChars isPySpace ((replaceForbidden l).dropWhile isPySpace)))

/-- `GDrive.sanitize_name` (lines 235-246). -/
def sanitize_name (s : String) : String :=
  String.mk (sanitizeChars s.data)

/-- Adjacent characters are never both whitespace; the invariant that makes
the whitespace-run collapse the identity. -/
def noTwoSpaces (a b : Char) : Prop := ¬(isPySpace a = true ∧ isPySpace b = true)

/-! ## MIME types and export extension mapping
(`GDrive.download_file`, lines 260-294) -/

def folderMime : String := "application/vnd.google-apps.folder"

def shortcutMime : String := "application/vnd.google-apps.shortcut"

def docMime : String := "application/vnd.google-apps.document"

def sheetMime : String := "application/vnd.google-apps.spreadsheet"

def slideMime : String := "application/vnd.google-apps.presentation"

/-- Python `str.endswith` on the character lists. -/
def pyEndsWith (s pat : String) : Bool := pat.data.isSuffixOf s.data

/-- The filename mapping of lines 271-291: for each virtual-document type the
mapped extension is appended unless the name already ends with it; any other
MIME type leaves the name unchanged. -/
def exportFileName (mime : String) (file_name : String) : String :=
  if mime = docMime then
    if pyEndsWith file_name ".docx" then file_name else file_name ++ ".docx"
  else if mime = sheetMime then
    if pyEndsWith file_name ".xlsx" then file_name else file_name ++ ".xlsx"
  else if mime = slideMime then
    if pyEndsWith file_name ".pptx" then file_name else file_name ++ ".pptx"
  else
    file_name

/-! ## Paginated listing (`GDrive.get_folder_items`, lines 173-193) -/

/-- One page of the files().list response: the items of the page and the
continuation token. -/
structure Page (α : Type) where
  items : List α
  nextPageToken : Option String

/-- Line 188: `if not page_token: break` — paging stops when the token is
absent or empty (both are falsy in Python). -/
def tokenDone : Option String → Bool
  | none => true
  | some s => s.isEmpty

/-- The `while True` loop of lines 178-189 run against a trace of per-call
service responses, accumulating `items`.  `Except.error` is a raised
transport/service error; a trace that runs out while a continuation token is
still pending is a call that fails, so both hit the bare `except` of
line 192 and the whole listing returns `[]`. -/
def getFolderItemsAux {α : Type} (acc : List α) :
    List (Except Unit (Page α)) → List α
  | [] => []
  | .error _ :: _ => []
  | .ok p :: rest =>
      if tokenDone p.nextPageToken then acc ++ p.items
      else getFolderItemsAux (acc ++ p.items) rest

/-- `GDrive.get_folder_items` (lines 173-193). -/
def get_folder_items {α : Type} (trace : List (Except Unit (Page α))) : List α :=
  getFolderItemsAux [] trace

/-! ## The remote tree, pre-flight counting and the walk
(`GDrive.count_files_and_size` lines 212-233, `GDrive.cp_folder` lines 356-368,
`GDrive.cp` lines 395-413) -/

/-- A listed remote node: a non-folder item (with its id, display name, MIME
type and declared size) or a folder with its children.  `size = none` models a
missing, falsy or non-numeric `size` field (lines 226-231 add nothing for
those). -/
inductive Item : Type where
  | file (id name mime : String) (size : Option Int) : Item
  | folder (name : String) (children : List Item) : Item

/-- The declared size used by line 227: 0 when the field is missing/invalid. -/
def sizeVal : Option Int → Int
  | none => 0
  | some n => n

/-- `GDrive.count_files_and_size` (lines 212-233) over the children of a
folder: folders recurse only in recursive mode; every non-folder child counts
once and contributes its non-negative declared size. -/
def count_files_and_size (recursive : Bool) : List Item → Nat × Int
  | [] => (0, 0)
  | Item.file _ _ _ sz :: rest =>
      ((count_files_and_size recursive rest).1 + 1,
       (count_files_and_size recursive rest).2 + max 0 (sizeVal sz))
  | Item.folder _ children :: rest =>
      if recursive then
        ((count_files_and_size recursive children).1 +
           (count_files_and_size recursive rest).1,
         (count_files_and_size recursive children).2 +
           (count_files_and_size recursive rest).2)
      else
        count_files_and_size recursive rest

/-- One download invocation made by the walk: the arguments of the
`download_file` call on line 368. -/
structure DlCall where
  fileId : String
  fileName : String
  mime : String
  dir : String
deriving DecidableEq

/-- Line 364: `f"{current_path}/{name}" if current_path else name`. -/
def joinPath (current_path name : String) : String :=
  if current_path = "" then name else current_path ++ "/" ++ name

/-- `GDrive.cp_folder` (lines 356-368) as the sequence of download invocations
it performs: names are sanitized, folders recurse (extending the relative
path) only in recursive mode, non-folder children are downloaded in listing
order. -/
def cp_folder (recursive : Bool) : List Item → String → List DlCall
  | [], _ => []
  | Item.file id name mime _ :: rest, current_path =>
      ⟨id, sanitize_name name, mime, current_path⟩ ::
        cp_folder recursive rest current_path
  | Item.folder name children :: rest, current_path =>
      (if recursive then
        cp_folder recursive children (joinPath current_path (sanitize_name name))
      else []) ++ cp_folder recursive rest current_path

/-- The tracker initialization performed by `GDrive.cp` for a folder source
(lines 395-407): the pre-flight count is taken, a zero file count aborts the
copy (`none`), and otherwise the tracker is constructed from the file count
alone — `total_size` is only printed on line 410. -/
def cpInitTracker (items : List Item) (recursive : Bool) : Option ProgressTracker :=
  if (count_files_and_size recursive items).1 = 0 then none
  else some (mkTracker (count_files_and_size recursive items).1)

/-! ## Crash-safe download (`GDrive.download_file`, lines 257-354) -/

/-- The filesystem locations one download touches: the output directory, the
final path and the temporary path.  File values are their byte contents. -/
structure FS where
  dirExists : Bool
  finalFile : Option (List Nat)
  tempFile : Option (List Nat)
deriving DecidableEq

/-- One `downloader.next_chunk()` outcome: the bytes it appended to the
temporary file, whether a status object was returned, the service-reported
resumable fraction, and the `done` flag. -/
structure Chunk where
  hasStatus : Bool
  fraction : ℚ
  data : List Nat
  done : Bool

/-- Line 325: `min(1.0, max(0.0, status.resumable_progress))`. -/
def clamp01 (q : ℚ) : ℚ := min 1 (max 0 q)

/-- The size fallback of lines 300-304: a failed or falsy size lookup yields
0. -/
def sizeResVal : Option Int → Int
  | none => 0
  | some n => n

/-- The transfer loop of lines 318-328 against a trace of chunk outcomes:
each chunk appends its bytes to the temporary file; when a status is present
and the declared size is positive, `int(ratio * file_size)` is reported to the
tracker (line 326-327: `Int.floor` agrees with Python `int()` on this
non-negative product).  The loop ends successfully at the first `done` chunk;
a raised chunk (or a stalled trace) is the failure case. -/
def runChunks (file_size : Int) :
    ProgressTracker → List Nat → List (Except Unit Chunk) →
      ProgressTracker × Option (List Nat)
  | tr, _, [] => (tr, none)
  | tr, _, .error _ :: _ => (tr, none)
  | tr, acc, .ok c :: rest =>
      let acc2 := acc ++ c.data
      let tr2 :=
        if c.hasStatus && decide (0 < file_size) then
          update_progress tr ⌊clamp01 c.fraction * (file_size : ℚ)⌋
        else tr
      if c.done then (tr2, some acc2) else runChunks file_size tr2 acc2 rest

/-- The ok-chunks a transfer trace consumes, up to and including the first
`done` chunk; empty when the trace errors or stalls first. -/
def consumedChunks : List (Except Unit Chunk) → List Chunk
  | [] => []
  | .error _ :: _ => []
  | .ok c :: rest => if c.done then [c] else c :: consumedChunks rest

/-- Whether the transfer trace reaches a `done` chunk before any error. -/
def transferCompletes : List (Except Unit Chunk) → Bool
  | [] => false
  | .error _ :: _ => false
  | .ok c :: rest => if c.done then true else transferCompletes rest

/-- The non-shortcut body of `GDrive.download_file` (lines 270-354): map the
export extension, create the output directory (line 296), resolve the declared
size (lines 300-304), register the file with the tracker (line 308), remove a
pre-existing final file (lines 314-315), stream to the temporary file
(lines 318-328), and either rename temp to final and complete (lines 331-339)
or — on any exception during the transfer — delete the temporary file and
return failure (lines 341-354). -/
def download_file_body (mime file_name : String) (sizeRes : Option Int)
    (trace : List (Except Unit Chunk)) (fs : FS) (tr : ProgressTracker) :
    FS × ProgressTracker × Bool :=
  let mappedName := exportFileName mime file_name
  let fs1 : FS := { fs with dirExists := true }
  let file_size := sizeResVal sizeRes
  let tr1 := update_file tr mappedName file_size
  let fs2 : FS := if fs1.finalFile.isSome then { fs1 with finalFile := none } else fs1
  let fs3 : FS := { fs2 with tempFile := some [] }
  match runChunks file_size tr1 [] trace with
  | (tr2, none) => ({ fs3 with tempFile := none }, tr2, false)
  | (tr2, some bytes) =>
      ({ fs3 with finalFile := some bytes, tempFile := none }, complete_file tr2, true)

/-- The arguments of one `download_file` call. -/
structure DlArgs where
  fileId : String
  fileName : String
  mime : String
deriving DecidableEq

/-- The remote service as seen by one download: the shortcut-target lookup of
lines 248-255 (`none` models both a raised request and a response without
`shortcutDetails` — both falsy at line 263), the size metadata lookup, and the
chunk trace of the content transfer. -/
structure DlEnv where
  shortcutTarget : String → Option (Option String × Option String)
  sizeMeta : String → Option Int
  chunkTrace : String → List (Except Unit Chunk)

/-- `GDrive.download_file` (lines 257-354).  A shortcut (lines 260-268) whose
details resolve to a target id and MIME type re-invokes the download on the
target before any filesystem action; otherwise resolution fails and `False` is
returned immediately.  `fuel` bounds the shortcut-chain depth; the source
recursion is unbounded, so the fuel-exhausted result is only reached on traces
longer than every fuel. -/
def download_file (env : DlEnv) :
    Nat → DlArgs → FS → ProgressTracker → FS × ProgressTracker × Bool
  | 0, _, fs, tr => (fs, tr, false)
  | fuel + 1, args, fs, tr =>
      if args.mime = shortcutMime then
        match env.shortcutTarget args.fileId with
        | none => (fs, tr, false)
        | some (some targetId, some targetMime) =>
            download_file env fuel ⟨targetId, args.fileName, targetMime⟩ fs tr
        | some _ => (fs, tr, false)
      else
        download_file_body args.mime args.fileName (env.sizeMeta args.fileId)
          (env.chunkTrace args.fileId) fs tr

/-- A sequence of downloads sharing one tracker, as performed by the walk:
returns the final tracker and each download's result. -/
def runTasks (env : DlEnv) (fuel : Nat) :
    List (DlArgs × FS) → ProgressTracker → ProgressTracker × List Bool
  | [], tr => (tr, [])
  | (args, fs) :: rest, tr =>
      ((runTasks env fuel rest (download_file env fuel args fs tr).2.1).1,
       (download_file env fuel args fs tr).2.2 ::
         (runTasks env fuel rest (download_file env fuel args fs tr).2.1).2)

/-! ## Concrete instances used by the witnesses -/

def trW1 : ProgressTracker := ⟨1, 0, "f", 100, 0, 100, 0⟩

def trW6 : ProgressTracker := ⟨1, 0, "f", 100, 40, 100, 40⟩

def chunkW : Chunk := ⟨false, 0, [7, 8], true⟩

def envW : DlEnv := ⟨fun _ => none, fun _ => none, fun _ => [Except.ok chunkW]⟩

def argsW : DlArgs := ⟨"id1", "a.bin", "application/octet-stream"⟩

def argsWsc : DlArgs := ⟨"id2", "b", shortcutMime⟩

def fsW : FS := ⟨false, none, none⟩

def pageW1 : Page Nat := ⟨[1, 2], some "tok"⟩

def pageW2 : Page Nat := ⟨[3], none⟩

def itemW : Item := Item.file "i1" "a.bin" "application/octet-stream" (some 2048)

/-! ## List helper lemmas -/

theorem map_eq_self_of_id {α : Type} (f : α → α) :
    ∀ l : List α, (∀ c ∈ l, f c = c) → l.map f = l := by
  intro l
  induction l with
  | nil => intro _; rfl
  | cons a t ih =>
      intro h
      simp only [List.map_cons]
      rw [h a (List.mem_cons_self a t), ih fun c hc => h c (List.mem_cons_of_mem a hc)]

theorem mem_of_getLast? {α : Type} :
    ∀ (l : List α) (c : α), l.getLast? = some c → c ∈ l := by
  intro l
  induction l with
  | nil => intro c h; simp at h
  | cons a t ih =>
      intro c h
      cases t with
      | nil => simp at h; simp [h]
      | cons b t2 =>
          rw [List.getLast?_cons_cons] at h
          exact List.mem_cons_of_mem a (ih c h)

theorem mem_dropWhile {α : Type} (p : α → Bool) :
    ∀ (l : List α) (c : α), c ∈ l.dropWhile p → c ∈ l := by
  intro l
  induction l with
  | nil => intro c h; simp at h
  | cons a t ih =>
      intro c h
      rw [List.dropWhile_cons] at h
      by_cases hp : p a = true
      · rw [if_pos hp] at h; exact List.mem_cons_of_mem a (ih c h)
      · rw [if_neg hp] at h; exact h

theorem head_dropWhile {α : Type} (p : α → Bool) :
    ∀ (l : List α) (c : α), (l.dropWhile p).head? = some c → p c = false := by
  intro l
  induction l with
  | nil => intro c h; simp at h
  | cons a t ih =>
      intro c h
      rw [List.dropWhile_cons] at h
      by_cases hp : p a = true
      · rw [if_pos hp] at h; exact ih c h
      · rw [if_neg hp] at h
        simp only [List.head?_cons, Option.some.injEq] at h
        rw [← h]
        exact Bool.eq_false_iff.mpr hp

theorem dropWhile_eq_self {α : Type} (p : α → Bool) :
    ∀ l : List α, (∀ c, l.head? = some c → p c = false) → l.dropWhile p = l := by
  intro l h
  cases l with
  | nil => rfl
  | cons a t =>
      rw [List.dropWhile_cons, if_neg]
      rw [h a rfl]
      simp

/-! ## rstripChars lemmas -/

theorem rstripChars_front (q : Char → Bool) :
    ∀ l : List Char, ∃ t, l = rstripChars q l ++ t := by
  intro l
  induction l with
  | nil => exact ⟨[], rfl⟩
  | cons a rest ih =>
      obtain ⟨t, ht⟩ := ih
      by_cases hc : (rstripChars q rest).isEmpty && q a
      · refine ⟨a :: rest, ?_⟩
        simp [rstripChars, hc]
      · refine ⟨t, ?_⟩
        simp only [rstripChars, if_neg hc, List.cons_append]
        rw [← ht]

theorem mem_rstripChars (q : Char → Bool) (l : List Char) (c : Char)
    (h : c ∈ rstripChars q l) : c ∈ l := by
  obtain ⟨t, ht⟩ := rstripChars_front q l
  rw [ht]
  exact List.mem_append_left t h

theorem head_rstripChars (q : Char → Bool) (l : List Char) (c : Char)
    (h : (rstripChars q l).head? = some c) : l.head? = some c := by
  obtain ⟨t, ht⟩ := rstripChars_front q l
  rw [ht]
  cases hr : rstripChars q l with
  | nil => rw [hr] at h; simp at h
  | cons b r => rw [hr] at h; simp at h; simp [h]

theorem last_rstripChars (q : Char → Bool) :
    ∀ (l : List Char) (c : Char), (rstripChars q l).getLast? = some c → q c = false := by
  intro l
  induction l with
  | nil => intro c h; simp [rstripChars] at h
  | cons a rest ih =>
      intro c h
      by_cases hc : (rstripChars q rest).isEmpty && q a
      · rw [rstripChars, if_pos hc] at h; simp at h
      · rw [rstripChars, if_neg hc] at h
        cases hr : rstripChars q rest with
        | nil =>
            rw [hr] at h
            simp only [List.getLast?_singleton, Option.some.injEq] at h
            rw [hr] at hc
            simp only [List.isEmpty_nil, Bool.true_and] at hc
            rw [← h]
            exact Bool.eq_false_iff.mpr hc
        | cons b r =>
            rw [hr, List.getLast?_cons_cons] at h
            rw [← hr] at h
            exact ih c h

theorem rstripChars_eq_self (q : Char → Bool) :
    ∀ l : List Char, (∀ c, l.getLast? = some c → q c = false) → rstripChars q l = l := by
  intro l
  induction l with
  | nil => intro _; rfl
  | cons a rest ih =>
      intro h
      cases rest with
      | nil =>
          have ha : q a = false := h a rfl
          simp [rstripChars, ha]
      | cons b r =>
          have hrest : rstripChars q (b :: r) = b :: r := by
            refine ih ?_
            intro c hc
            refine h c ?_
            rw [List.getLast?_cons_cons]
            exact hc
          rw [rstripChars, hrest]
          simp

/-! ## collapseAux lemmas -/

theorem collapseAux_mem :
    ∀ (l : List Char) (b : Bool) (c : Char),
      c ∈ collapseAux b l → c = ' ' ∨ (c ∈ l ∧ isPySpace c = false) := by
  intro l
  induction l with
  | nil => intro b c h; simp [collapseAux] at h
  | cons a rest ih =>
      intro b c h
      by_cases hs : isPySpace a = true
      · cases b with
        | true =>
            simp only [collapseAux, hs, if_pos, if_true] at h
            rcases ih true c h with h1 | ⟨h2, h3⟩
            · exact Or.inl h1
            · exact Or.inr ⟨List.mem_cons_of_mem a h2, h3⟩
        | false =>
            simp only [collapseAux, hs, if_pos, if_false, Bool.false_eq_true,
              List.mem_cons] at h
            rcases h with h | h
            · exact Or.inl h
            · rcases ih true c h with h1 | ⟨h2, h3⟩
              · exact Or.inl h1
              · exact Or.inr ⟨List.mem_cons_of_mem a h2, h3⟩
      · have hs' : isPySpace a = false := Bool.eq_false_iff.mpr hs
        simp only [collapseAux, hs', Bool.false_eq_true, if_false, List.mem_cons] at h
        rcases h with h | h
        · exact Or.inr ⟨by simp [h], by rw [h]; exact hs'⟩
        · rcases ih false c h with h1 | ⟨h2, h3⟩
          · exact Or.inl h1
          · exact Or.inr ⟨List.mem_cons_of_mem a h2, h3⟩

theorem collapseAux_true_head :
    ∀ (l : List Char) (c : Char),
      (collapseAux true l).head? = some c → isPySpace c = false := by
  intro l
  induction l with
  | nil => intro c h; simp [collapseAux] at h
  | cons a rest ih =>
      intro c h
      by_cases hs : isPySpace a = true
      · simp only [collapseAux, hs, if_true] at h
        exact ih c h
      · have hs' : isPySpace a = false := Bool.eq_false_iff.mpr hs
        simp only [collapseAux, hs', Bool.false_eq_true, if_false, List.head?_cons,
          Option.some.injEq] at h
        rw [← h]; exact hs'

theorem collapseAux_chain :
    ∀ (l : List Char) (b : Bool), List.Chain' noTwoSpaces (collapseAux b l) := by
  intro l
  induction l with
  | nil => intro b; simp [collapseAux]
  | cons a rest ih =>
      intro b
      by_cases hs : isPySpace a = true
      · cases b with
        | true => simpa only [collapseAux, hs, if_true] using ih true
        | false =>
            simp only [collapseAux, hs, if_true, Bool.false_eq_true, if_false]
            rw [List.chain'_cons']
            refine ⟨?_, ih true⟩
            intro y hy
            intro ⟨_, hy2⟩
            rw [collapseAux_true_head rest y hy] at hy2
            exact Bool.false_ne_true hy2
      · have hs' : isPySpace a = false := Bool.eq_false_iff.mpr hs
        simp only [collapseAux, hs', Bool.false_eq_true, if_false]
        rw [List.chain'_cons']
        refine ⟨?_, ih false⟩
        intro y hy
        intro ⟨hy1, _⟩
        rw [hs'] at hy1
        exact Bool.false_ne_true hy1

theorem collapseAux_true_eq_false (l : List Char)
    (h : ∀ c, l.head? = some c → isPySpace c = false) :
    collapseAux true l = collapseAux false l := by
  cases l with
  | nil => rfl
  | cons a rest =>
      have ha : isPySpace a = false := h a rfl
      simp [collapseAux, ha]

theorem collapseAux_eq_self :
    ∀ l : List Char, (∀ c ∈ l, isPySpace c = true → c = ' ') →
      List.Chain' noTwoSpaces l → collapseAux false l = l := by
  intro l
  induction l with
  | nil => intro _ _; rfl
  | cons a rest ih =>
      intro hws hch
      obtain ⟨hhd, htl⟩ := List.chain'_cons'.mp hch
      by_cases hs : isPySpace a = true
      · have ha : a = ' ' := hws a (List.mem_cons_self a rest) hs
        have hresthead : ∀ c, rest.head? = some c → isPySpace c = false := by
          intro c hc
          have := hhd c hc
          unfold noTwoSpaces at this
          cases hb : isPySpace c with
          | false => rfl
          | true => exact absurd ⟨hs, hb⟩ this
        simp only [collapseAux, hs, if_true, Bool.false_eq_true, if_false]
        rw [collapseAux_true_eq_false rest hresthead, ha,
          ih (fun c hc h2 => hws c (List.mem_cons_of_mem a hc) h2) htl]
      · have hs' : isPySpace a = false := Bool.eq_false_iff.mpr hs
        simp only [collapseAux, hs', Bool.false_eq_true, if_false]
        rw [ih (fun c hc h2 => hws c (List.mem_cons_of_mem a hc) h2) htl]

/-! ## Properties of sanitizeChars -/

theorem sanitizeChars_props (l : List Char) :
    (∀ c ∈ sanitizeChars l, c ∉ forbiddenChars) ∧
    (∀ c, (sanitizeChars l).head? = some c → isPySpace c = false) ∧
    (∀ c ∈ sanitizeChars l, isPySpace c = true → c = ' ') ∧
    List.Chain' noTwoSpaces (sanitizeChars l) ∧
    (∀ c, (sanitizeChars l).getLast? = some c → c ≠ '.' ∧ c ≠ ' ') := by
  unfold sanitizeChars
  set y0 := replaceForbidden l with hy0
  set y1 := y0.dropWhile isPySpace with hy1
  set y2 := rstripChars isPySpace y1 with hy2
  set y3 := collapseAux false y2 with hy3
  refine ⟨?_, ?_, ?_, ?_, ?_⟩
  · intro c hc
    have hc3 : c ∈ y3 := mem_rstripChars _ y3 c hc
    rcases collapseAux_mem y2 false c hc3 with h | ⟨h2, _⟩
    · rw [h]; decide
    · have hc1 : c ∈ y1 := mem_rstripChars _ y1 c h2
      have hc0 : c ∈ y0 := mem_dropWhile _ y0 c hc1
      rw [hy0] at hc0
      unfold replaceForbidden at hc0
      obtain ⟨a, _, ha2⟩ := List.mem_map.mp hc0
      by_cases haf : a ∈ forbiddenChars
      · rw [if_pos haf] at ha2; rw [← ha2]; decide
      · rw [if_neg haf] at ha2; rw [← ha2]; exact haf
  · intro c hc
    have hc3 : y3.head? = some c := head_rstripChars _ y3 c hc
    cases hc2 : y2 with
    | nil => rw [hy3, hc2] at hc3; simp [collapseAux] at hc3
    | cons b r =>
        have hb1 : y1.head? = some b := by
          refine head_rstripChars isPySpace y1 b ?_
          rw [← hy2, hc2]; rfl
        have hb : isPySpace b = false := head_dropWhile _ y0 b hb1
        rw [hy3, hc2] at hc3
        simp only [collapseAux, hb, Bool.false_eq_true, if_false, List.head?_cons,
          Option.some.injEq] at hc3
        rw [← hc3]; exact hb
  · intro c hc hs
    have hc3 : c ∈ y3 := mem_rstripChars _ y3 c hc
    rcases collapseAux_mem y2 false c hc3 with h | ⟨_, h3⟩
    · exact h
    · rw [hs] at h3; exact absurd h3 (by decide)
  · have hch : List.Chain' noTwoSpaces y3 := collapseAux_chain y2 false
    obtain ⟨t, ht⟩ := rstripChars_front isDotOrSpace y3
    rw [ht] at hch
    exact (List.chain'_append.mp hch).1
  · intro c hc
    have := last_rstripChars isDotOrSpace y3 c hc
    unfold isDotOrSpace at this
    simp only [Bool.or_eq_false_iff, beq_eq_false_iff_ne, ne_eq] at this
    exact this

theorem sanitizeChars_eq_self (l : List Char)
    (h1 : ∀ c ∈ l, c ∉ forbiddenChars)
    (h2 : ∀ c, l.head? = some c → isPySpace c = false)
    (h3 : ∀ c ∈ l, isPySpace c = true → c = ' ')
    (h4 : List.Chain' noTwoSpaces l)
    (h5 : ∀ c, l.getLast? = some c → c ≠ '.' ∧ c ≠ ' ') :
    sanitizeChars l = l := by
  have hlastNotSpace : ∀ c, l.getLast? = some c → isPySpace c = false := by
    intro c hc
    cases hb : isPySpace c with
    | false => rfl
    | true =>
        have hmem : c ∈ l := mem_of_getLast? l c hc
        have : c = ' ' := h3 c hmem hb
        exact absurd this (h5 c hc).2
  have s1 : replaceForbidden l = l := by
    unfold replaceForbidden
    exact map_eq_self_of_id _ l fun c hc => if_neg (h1 c hc)
  have s2 : l.dropWhile isPySpace = l := dropWhile_eq_self _ l h2
  have s3 : rstripChars isPySpace l = l := rstripChars_eq_self _ l hlastNotSpace
  have s4 : collapseAux false l = l := collapseAux_eq_self l h3 h4
  have s5 : rstripChars isDotOrSpace l = l := by
    refine rstripChars_eq_self _ l ?_
    intro c hc
    have := h5 c hc
    unfold isDotOrSpace
    simp only [Bool.or_eq_false_iff, beq_eq_false_iff_ne, ne_eq]
    exact this
  unfold sanitizeChars
  rw [s1, s2, s3, s4, s5]

/-- C5: name sanitization is idempotent, its output never contains a forbidden
character from `<>:"/\|?*`, and its output has no leading or trailing
whitespace and no trailing dot or space. -/
theorem c5_sanitize_name (s : String) :
    sanitize_name (sanitize_name s) = sanitize_name s ∧
    (∀ c ∈ (sanitize_name s).data, c ∉ forbiddenChars) ∧
    (∀ c, (sanitize_name s).data.head? = some c → isPySpace c = false) ∧
    (∀ c, (sanitize_name s).data.getLast? = some c →
      isPySpace c = false ∧ c ≠ '.' ∧ c ≠ ' ') := by
  obtain ⟨h1, h2, h3, h4, h5⟩ := sanitizeChars_props s.data
  have hdata : (sanitize_name s).data = sanitizeChars s.data := rfl
  have hlast : ∀ c, (sanitizeChars s.data).getLast? = some c → isPySpace c = false := by
    intro c hc
    cases hb : isPySpace c with
    | false => rfl
    | true =>
        have hmem : c ∈ sanitizeChars s.data := mem_of_getLast? _ c hc
        exact absurd (h3 c hmem hb) (h5 c hc).2
  refine ⟨?_, ?_, ?_, ?_⟩
  · show String.mk (sanitizeChars (sanitizeChars s.data)) = String.mk (sanitizeChars s.data)
    exact congrArg String.mk (sanitizeChars_eq_self (sanitizeChars s.data) h1 h2 h3 h4 h5)
  · rw [hdata]; exact h1
  · rw [hdata]; exact h2
  · rw [hdata]
    intro c hc
    exact ⟨hlast c hc, h5 c hc⟩

theorem c5_witness :
    sanitize_name (sanitize_name "  a<b . ") = sanitize_name "  a<b . " ∧
    '_' ∉ forbiddenChars ∧ isPySpace 'a' = false ∧
    isPySpace 'b' = false ∧ 'b' ≠ '.' := by
  obtain ⟨h1, h2, h3, h4⟩ := c5_sanitize_name "  a<b . "
  exact ⟨h1, h2 '_' (by decide), h3 'a' (by decide), (h4 'b' (by decide)).1,
    (h4 'b' (by decide)).2.1⟩

/-! ## Progress aggregation (C1, C6) -/

theorem applyOp_downloaded_mono (tr : ProgressTracker) (op : TrackerOp) :
    tr.downloaded_bytes ≤ (applyOp tr op).downloaded_bytes := by
  cases op with
  | upFile n s => simp [applyOp, update_file]
  | upProg d =>
      simp only [applyOp, update_progress]
      split
      · show tr.downloaded_bytes ≤
          (if tr.current_downloaded < d then
            tr.downloaded_bytes + (d - tr.current_downloaded)
          else tr.downloaded_bytes)
        split
        · omega
        · exact le_refl _
      · exact le_refl _
  | completeOne => simp [applyOp, complete_file]

theorem applyOps_downloaded_mono :
    ∀ (ops : List TrackerOp) (tr : ProgressTracker),
      tr.downloaded_bytes ≤ (applyOps tr ops).downloaded_bytes := by
  intro ops
  induction ops with
  | nil => intro tr; exact le_refl _
  | cons op rest ih =>
      intro tr
      have h1 := applyOp_downloaded_mono tr op
      have h2 := ih (applyOp tr op)
      calc tr.downloaded_bytes ≤ (applyOp tr op).downloaded_bytes := h1
        _ ≤ (applyOps (applyOp tr op) rest).downloaded_bytes := h2
        _ = (applyOps tr (op :: rest)).downloaded_bytes := rfl

/-- C1: a progress report is accepted only when `0 ≤ downloaded ≤` the current
file's declared size (otherwise the state is unchanged); an accepted report
records the value and adds exactly the positive part of the delta versus the
previous value to the cumulative counter; a duplicate report of the same value
adds nothing; and across every sequence of tracker calls the cumulative
downloaded-bytes counter is monotonically non-decreasing. -/
theorem c1_update_progress (tr : ProgressTracker) (d : Int) (ops : List TrackerOp) :
    (¬(0 ≤ d ∧ d ≤ tr.current_file_size) → update_progress tr d = tr) ∧
    (0 ≤ d → d ≤ tr.current_file_size →
      (update_progress tr d).downloaded_bytes
          = tr.downloaded_bytes + max 0 (d - tr.current_downloaded) ∧
      (update_progress tr d).current_downloaded = d) ∧
    (update_progress (update_progress tr d) d).downloaded_bytes
        = (update_progress tr d).downloaded_bytes ∧
    tr.downloaded_bytes ≤ (applyOps tr ops).downloaded_bytes := by
  refine ⟨?_, ?_, ?_, applyOps_downloaded_mono ops tr⟩
  · intro h
    unfold update_progress
    rw [if_neg h]
  · intro h0 h1
    unfold update_progress
    rw [if_pos ⟨h0, h1⟩]
    refine ⟨?_, rfl⟩
    show (if tr.current_downloaded < d then
        tr.downloaded_bytes + (d - tr.current_downloaded)
      else tr.downloaded_bytes) = tr.downloaded_bytes + max 0 (d - tr.current_downloaded)
    rcases lt_or_le tr.current_downloaded d with hlt | hle
    · rw [if_pos hlt, max_eq_right (by omega : (0 : ℤ) ≤ d - tr.current_downloaded)]
    · rw [if_neg (not_lt.mpr hle),
        max_eq_left (by omega : d - tr.current_downloaded ≤ (0 : ℤ)), add_zero]
  · by_cases hacc : 0 ≤ d ∧ d ≤ tr.current_file_size
    · simp [update_progress, hacc.1, hacc.2]
    · have he : update_progress tr d = tr := by
        unfold update_progress; rw [if_neg hacc]
      simp [he]

theorem c1_witness :
    (update_progress trW1 60).downloaded_bytes
        = trW1.downloaded_bytes + max 0 (60 - trW1.current_downloaded) ∧
    (update_progress trW1 60).current_downloaded = 60 ∧
    update_progress trW1 (-5) = trW1 := by
  have h := c1_update_progress trW1 60 []
  have h2 := c1_update_progress trW1 (-5) []
  exact ⟨(h.2.1 (by decide) (by decide)).1, (h.2.1 (by decide) (by decide)).2,
    h2.1 (by decide)⟩

/-- C6: `get_eta` returns the unknown marker (no division is reached) whenever
the throughput is 0 or the total expected bytes are not positive; the
throughput is 0 whenever at most one second has elapsed; and with positive
throughput and positive total expected bytes the ETA equals
`(total_bytes - downloaded_bytes) / speed` floored at 0. -/
theorem c6_get_eta (tr : ProgressTracker) (elapsed : ℚ) :
    (get_speed tr elapsed = 0 ∨ tr.total_bytes ≤ 0 → get_eta tr elapsed = none) ∧
    (elapsed ≤ 1 → get_speed tr elapsed = 0) ∧
    (0 < get_speed tr elapsed → 0 < tr.total_bytes →
      get_eta tr elapsed
          = some (max 0 (((tr.total_bytes : ℚ) - (tr.downloaded_bytes : ℚ))
              / get_speed tr elapsed))) := by
  refine ⟨?_, ?_, ?_⟩
  · intro h
    have hcond : ¬(0 < get_speed tr elapsed ∧ 0 < tr.total_bytes) := by
      rintro ⟨hs, ht⟩
      rcases h with h | h
      · rw [h] at hs; exact lt_irrefl 0 hs
      · exact absurd ht (not_lt.mpr h)
    unfold get_eta
    rw [if_neg hcond]
  · intro h
    unfold get_speed
    rw [if_neg (not_lt.mpr h)]
  · intro hs ht
    unfold get_eta
    rw [if_pos ⟨hs, ht⟩]
    congr 1
    rcases le_total ((tr.total_bytes : ℚ) - (tr.downloaded_bytes : ℚ)) 0 with hle | hge
    · rw [max_eq_left hle, zero_div, max_eq_left]
      exact (div_le_iff₀ hs).mpr (by rw [zero_mul]; exact hle)
    · rw [max_eq_right hge, max_eq_right (div_nonneg hge (le_of_lt hs))]

theorem c6_witness :
    get_eta trW6 3
        = some (max 0 (((trW6.total_bytes : ℚ) - (trW6.downloaded_bytes : ℚ))
            / get_speed trW6 3)) ∧
    get_speed trW6 1 = 0 ∧
    get_eta (mkTracker 1) 3 = none := by
  have h := c6_get_eta trW6 3
  have h1 := c6_get_eta trW6 1
  have h0 := c6_get_eta (mkTracker 1) 3
  refine ⟨h.2.2 ?_ ?_, h1.2.1 (by norm_num), h0.1 (Or.inl ?_)⟩
  · show (0 : ℚ) < get_speed trW6 3
    norm_num [get_speed, trW6]
  · decide
  · show get_speed (mkTracker 1) 3 = 0
    norm_num [get_speed, mkTracker]

/-! ## Export extension mapping (C4) -/

/-- C4: for each virtual-document type the mapped extension is appended to the
local filename exactly when the name does not already end with it; a name that
already ends with the extension is kept unchanged, and otherwise the extension
is appended to (never substituted for) the existing name. -/
theorem c4_export_extension (file_name : String) :
    exportFileName docMime "Report" = "Report.docx" ∧
    exportFileName docMime "Report.docx" = "Report.docx" ∧
    ∀ mime ext : String,
      (mime = docMime ∧ ext = ".docx") ∨ (mime = sheetMime ∧ ext = ".xlsx") ∨
        (mime = slideMime ∧ ext = ".pptx") →
      (pyEndsWith file_name ext = true → exportFileName mime file_name = file_name) ∧
      (pyEndsWith file_name ext = false →
        exportFileName mime file_name = file_name ++ ext) := by
  have hne1 : ¬(sheetMime = docMime) := by decide
  have hne2 : ¬(slideMime = docMime) := by decide
  have hne3 : ¬(slideMime = sheetMime) := by decide
  refine ⟨by decide, by decide, ?_⟩
  rintro mime ext (⟨rfl, rfl⟩ | ⟨rfl, rfl⟩ | ⟨rfl, rfl⟩)
  · constructor
    · intro h; simp [exportFileName, h]
    · intro h; simp [exportFileName, h]
  · constructor
    · intro h; simp [exportFileName, hne1, h]
    · intro h; simp [exportFileName, hne1, h]
  · constructor
    · intro h; simp [exportFileName, hne2, hne3, h]
    · intro h; simp [exportFileName, hne2, hne3, h]

theorem c4_witness :
    exportFileName sheetMime "Data" = "Data" ++ ".xlsx" ∧
    exportFileName slideMime "Show.pptx" = "Show.pptx" := by
  have h := c4_export_extension "Data"
  have h2 := c4_export_extension "Show.pptx"
  exact ⟨(h.2.2 sheetMime ".xlsx" (Or.inr (Or.inl ⟨rfl, rfl⟩))).2 (by decide),
    (h2.2.2 slideMime ".pptx" (Or.inr (Or.inr ⟨rfl, rfl⟩))).1 (by decide)⟩

/-! ## Paginated listing (C7) -/

theorem getFolderItemsAux_ok {α : Type} (last : Page α) :
    ∀ (pages : List (Page α)) (acc : List α),
      (∀ p ∈ pages, tokenDone p.nextPageToken = false) →
      tokenDone last.nextPageToken = true →
      getFolderItemsAux acc (pages.map Except.ok ++ [Except.ok last])
        = acc ++ pages.flatMap Page.items ++ last.items := by
  intro pages
  induction pages with
  | nil =>
      intro acc _ hlast
      simp [getFolderItemsAux, hlast]
  | cons p ps ih =>
      intro acc h hlast
      have hp : tokenDone p.nextPageToken = false := h p (List.mem_cons_self p ps)
      have hrec := ih (acc ++ p.items) (fun q hq => h q (List.mem_cons_of_mem p hq)) hlast
      simp only [List.map_cons, List.cons_append, getFolderItemsAux, hp,
        Bool.false_eq_true, if_false, List.append_eq]
      rw [hrec]
      simp [List.flatMap_cons, List.append_assoc]

theorem getFolderItemsAux_err {α : Type} :
    ∀ (pages : List (Page α)) (acc : List α) (rest : List (Except Unit (Page α))),
      (∀ p ∈ pages, tokenDone p.nextPageToken = false) →
      getFolderItemsAux acc (pages.map Except.ok ++ Except.error () :: rest) = [] := by
  intro pages
  induction pages with
  | nil => intro acc rest _; rfl
  | cons p ps ih =>
      intro acc rest h
      have hp : tokenDone p.nextPageToken = false := h p (List.mem_cons_self p ps)
      simp only [List.map_cons, List.cons_append, getFolderItemsAux, hp,
        Bool.false_eq_true, if_false]
      exact ih (acc ++ p.items) rest fun q hq => h q (List.mem_cons_of_mem p hq)

/-- C7: the listing pages through the service following the continuation token
until the service reports no further page, concatenating the pages in service
order; a transport/service error anywhere during paging makes the whole call
return the empty sequence instead of propagating the error. -/
theorem c7_get_folder_items {α : Type} (pages : List (Page α)) (last : Page α)
    (rest : List (Except Unit (Page α)))
    (hmid : ∀ p ∈ pages, tokenDone p.nextPageToken = false) :
    (tokenDone last.nextPageToken = true →
      get_folder_items (pages.map Except.ok ++ [Except.ok last])
        = pages.flatMap Page.items ++ last.items) ∧
    get_folder_items (pages.map Except.ok ++ Except.error () :: rest) = [] := by
  constructor
  · intro hlast
    have h := getFolderItemsAux_ok last pages [] hmid hlast
    simpa [get_folder_items] using h
  · exact getFolderItemsAux_err pages [] rest hmid

theorem c7_witness :
    get_folder_items ([pageW1].map Except.ok ++ [Except.ok pageW2]) = [1, 2, 3] ∧
    get_folder_items
        ([pageW1].map Except.ok ++
          Except.error () :: ([] : List (Except Unit (Page Nat)))) = [] := by
  have h := c7_get_folder_items [pageW1] pageW2 []
    (by intro p hp; rw [List.mem_singleton] at hp; subst hp; decide)
  refine ⟨?_, h.2⟩
  rw [h.1 (by decide)]
  decide

/-! ## Pre-flight counting and tracker sizing (C3) -/

/-- C3 (amended): the pre-flight walk establishes both the total file count
and the total byte size, but only the file count is used to size the
`ProgressTracker` (a zero count aborts the copy); the tracker's expected-bytes
total starts at 0 and accumulates per file through `update_file` as each
download begins — it is not pre-set from the pre-flight byte total. -/
theorem c3_preflight_tracker (items : List Item) (recursive : Bool) :
    ((count_files_and_size recursive items).1 = 0 →
      cpInitTracker items recursive = none) ∧
    ((count_files_and_size recursive items).1 ≠ 0 →
      cpInitTracker items recursive
          = some (mkTracker (count_files_and_size recursive items).1)) ∧
    (∀ n, (mkTracker n).total_files = n ∧ (mkTracker n).total_bytes = 0) ∧
    (∀ (tr : ProgressTracker) (name : String) (sz : Int), 0 < sz →
      (update_file tr name sz).total_bytes = tr.total_bytes + sz) ∧
    (∀ (tr : ProgressTracker) (name : String) (sz : Int), sz ≤ 0 →
      (update_file tr name sz).total_bytes = tr.total_bytes) := by
  refine ⟨?_, ?_, fun n => ⟨rfl, rfl⟩, ?_, ?_⟩
  · intro h
    unfold cpInitTracker
    rw [if_pos h]
  · intro h
    unfold cpInitTracker
    rw [if_neg h]
  · intro tr name sz h
    unfold update_file
    show (if 0 < sz then tr.total_bytes + sz else tr.total_bytes) = tr.total_bytes + sz
    rw [if_pos h]
  · intro tr name sz h
    unfold update_file
    show (if 0 < sz then tr.total_bytes + sz else tr.total_bytes) = tr.total_bytes
    rw [if_neg (not_lt.mpr h)]

/-- The claim as frozen is false on the code: the pre-flight byte total is
never given to the tracker — `ProgressTracker(total_files, quiet, no_progress)`
on line 407 receives the file count only, so the tracker built by `cp` for a
folder holding one 2048-byte file starts with `total_bytes = 0` and its ETA is
the unknown marker, not a value derived from the pre-established 2048. -/
theorem c3_counterexample :
    (count_files_and_size true [itemW]).2 = 2048 ∧
    cpInitTracker [itemW] true = some (mkTracker 1) ∧
    (mkTracker 1).total_bytes = 0 ∧
    (mkTracker 1).total_bytes ≠ (count_files_and_size true [itemW]).2 ∧
    get_eta (mkTracker 1) 100 = none := by
  have hc : count_files_and_size true [itemW] = (1, 2048) := by
    simp [count_files_and_size, itemW, sizeVal]
  refine ⟨by rw [hc], ?_, rfl, by rw [hc]; decide, ?_⟩
  · unfold cpInitTracker
    rw [hc]
    norm_num
  · unfold get_eta
    rw [if_neg]
    rintro ⟨hs, _⟩
    rw [show get_speed (mkTracker 1) 100 = 0 from by norm_num [get_speed, mkTracker]] at hs
    exact lt_irrefl 0 hs

theorem c3_witness :
    cpInitTracker [itemW] true
        = some (mkTracker (count_files_and_size true [itemW]).1) ∧
    (update_file (mkTracker 1) "a.bin" 2048).total_bytes
        = (mkTracker 1).total_bytes + 2048 ∧
    (update_file (mkTracker 1) "a.bin" 0).total_bytes = (mkTracker 1).total_bytes := by
  have h := c3_preflight_tracker [itemW] true
  refine ⟨h.2.1 ?_, h.2.2.2.1 (mkTracker 1) "a.bin" 2048 (by norm_num),
    h.2.2.2.2 (mkTracker 1) "a.bin" 0 (by norm_num)⟩
  simp [count_files_and_size, itemW]

/-! ## Non-recursive folder copy (C8) -/

/-- C8: with `recursive = False`, the walk downloads exactly the non-folder
children (in listing order, with sanitized names) and silently skips every
subfolder, and the pre-flight counter applies the same rule: folders
contribute nothing to the file count or the byte total. -/
theorem c8_nonrecursive (items : List Item) (current_path : String) :
    cp_folder false items current_path
        = items.filterMap (fun i => match i with
            | Item.file id name mime _ =>
                some ⟨id, sanitize_name name, mime, current_path⟩
            | Item.folder _ _ => none) ∧
    (count_files_and_size false items).1
        = (items.filter (fun i => match i with
            | Item.file _ _ _ _ => true
            | Item.folder _ _ => false)).length ∧
    (count_files_and_size false items).2
        = (items.map (fun i => match i with
            | Item.file _ _ _ sz => max 0 (sizeVal sz)
            | Item.folder _ _ => 0)).sum := by
  induction items with
  | nil =>
      exact ⟨by simp [cp_folder], by simp [count_files_and_size],
        by simp [count_files_and_size]⟩
  | cons i rest ih =>
      obtain ⟨ih1, ih2, ih3⟩ := ih
      cases i with
      | file id name mime sz =>
          refine ⟨?_, ?_, ?_⟩
          · simp only [cp_folder, List.filterMap_cons]
            rw [ih1]
          · simp only [count_files_and_size, List.filter_cons]
            simp [ih2]
          · simp only [count_files_and_size, List.map_cons, List.sum_cons]
            rw [ih3]
            exact add_comm _ _
      | folder name children =>
          refine ⟨?_, ?_, ?_⟩
          · simp only [cp_folder, Bool.false_eq_true, if_false, List.nil_append,
              List.filterMap_cons]
            exact ih1
          · simp only [count_files_and_size, Bool.false_eq_true, if_false,
              List.filter_cons]
            simpa using ih2
          · simp only [count_files_and_size, Bool.false_eq_true, if_false,
              List.map_cons, List.sum_cons]
            simpa using ih3

/-! ## Crash-safe download (C2, C9, C10) -/

theorem runChunks_spec (file_size : Int) :
    ∀ (trace : List (Except Unit Chunk)) (tr : ProgressTracker) (acc : List Nat),
      (runChunks file_size tr acc trace).2
        = (if transferCompletes trace then
            some (acc ++ (consumedChunks trace).flatMap Chunk.data)
          else none) := by
  intro trace
  induction trace with
  | nil => intro tr acc; simp [runChunks, transferCompletes]
  | cons e rest ih =>
      intro tr acc
      cases e with
      | error u => simp [runChunks, transferCompletes]
      | ok c =>
          by_cases hd : c.done = true
          · simp [runChunks, transferCompletes, consumedChunks, hd]
          · simp [runChunks, transferCompletes, consumedChunks, hd, ih,
              List.append_assoc]

theorem update_progress_completed (tr : ProgressTracker) (d : Int) :
    (update_progress tr d).completed_files = tr.completed_files := by
  unfold update_progress
  split <;> rfl

theorem runChunks_completed (file_size : Int) :
    ∀ (trace : List (Except Unit Chunk)) (tr : ProgressTracker) (acc : List Nat),
      ((runChunks file_size tr acc trace).1).completed_files = tr.completed_files := by
  intro trace
  induction trace with
  | nil => intro tr acc; rfl
  | cons e rest ih =>
      intro tr acc
      cases e with
      | error u => rfl
      | ok c =>
          simp only [runChunks]
          by_cases hd : c.done = true
          · rw [if_pos hd]
            show (if c.hasStatus && decide (0 < file_size) then
                update_progress tr ⌊clamp01 c.fraction * (file_size : ℚ)⌋
              else tr).completed_files = tr.completed_files
            split
            · exact update_progress_completed tr _
            · rfl
          · rw [if_neg hd, ih]
            split
            · exact update_progress_completed tr _
            · rfl

/-- C2: for every transfer trace, the temporary file never survives the call:
on failure it is deleted and no file is left at the final path, and the final
path holds content exactly when the whole transfer completed, namely the fully
written temporary content (the concatenation of all consumed chunk bytes)
published by the rename. -/
theorem c2_crash_safe (mime file_name : String) (sizeRes : Option Int)
    (trace : List (Except Unit Chunk)) (fs : FS) (tr : ProgressTracker) :
    (download_file_body mime file_name sizeRes trace fs tr).1.tempFile = none ∧
    (download_file_body mime file_name sizeRes trace fs tr).2.2
        = transferCompletes trace ∧
    (download_file_body mime file_name sizeRes trace fs tr).1.finalFile
        = (if transferCompletes trace then
            some ((consumedChunks trace).flatMap Chunk.data)
          else none) := by
  have hspec := runChunks_spec (sizeResVal sizeRes) trace
    (update_file tr (exportFileName mime file_name) (sizeResVal sizeRes)) []
  rcases hrc : runChunks (sizeResVal sizeRes)
      (update_file tr (exportFileName mime file_name) (sizeResVal sizeRes)) [] trace
    with ⟨tr2, o⟩
  rw [hrc] at hspec
  cases o with
  | none =>
      have ht : transferCompletes trace = false := by
        by_cases h : transferCompletes trace = true
        · rw [if_pos h] at hspec; simp at hspec
        · exact Bool.eq_false_iff.mpr h
      cases hf : fs.finalFile <;>
        simp [download_file_body, hrc, ht, hf]
  | some bytes =>
      have ht : transferCompletes trace = true := by
        by_cases h : transferCompletes trace = true
        · exact h
        · rw [if_neg h] at hspec; simp at hspec
      rw [if_pos ht] at hspec
      have hbytes : bytes = (consumedChunks trace).flatMap Chunk.data := by
        simpa using hspec
      cases hf : fs.finalFile <;>
        simp [download_file_body, hrc, ht, hf, hbytes]

theorem download_body_completed (mime file_name : String) (sizeRes : Option Int)
    (trace : List (Except Unit Chunk)) (fs : FS) (tr : ProgressTracker) :
    ((download_file_body mime file_name sizeRes trace fs tr).2.1).completed_files
        = tr.completed_files
          + (if (download_file_body mime file_name sizeRes trace fs tr).2.2 then 1
            else 0) ∧
    ((download_file_body mime file_name sizeRes trace fs tr).2.2 = true →
      (download_file_body mime file_name sizeRes trace fs tr).1.finalFile.isSome
        = true) := by
  have hcomp := runChunks_completed (sizeResVal sizeRes) trace
    (update_file tr (exportFileName mime file_name) (sizeResVal sizeRes)) []
  rcases hrc : runChunks (sizeResVal sizeRes)
      (update_file tr (exportFileName mime file_name) (sizeResVal sizeRes)) [] trace
    with ⟨tr2, o⟩
  rw [hrc] at hcomp
  have htr2 : tr2.completed_files = tr.completed_files := by
    simpa [update_file] using hcomp
  cases o with
  | none =>
      constructor
      · simp [download_file_body, hrc, htr2]
      · simp [download_file_body, hrc]
  | some bytes =>
      constructor
      · simp [download_file_body, hrc, complete_file, htr2]
      · simp [download_file_body, hrc]

theorem download_file_completed (env : DlEnv) :
    ∀ (fuel : Nat) (args : DlArgs) (fs : FS) (tr : ProgressTracker),
      ((download_file env fuel args fs tr).2.1).completed_files
          = tr.completed_files
            + (if (download_file env fuel args fs tr).2.2 then 1 else 0) ∧
      ((download_file env fuel args fs tr).2.2 = true →
        (download_file env fuel args fs tr).1.finalFile.isSome = true) := by
  intro fuel
  induction fuel with
  | zero =>
      intro args fs tr
      exact ⟨by simp [download_file], by simp [download_file]⟩
  | succ n ih =>
      intro args fs tr
      by_cases hm : args.mime = shortcutMime
      · rcases hsc : env.shortcutTarget args.fileId with _ | ⟨tid, tmime⟩
        · simp [download_file, hm, hsc]
        · cases tid with
          | none => simp [download_file, hm, hsc]
          | some t =>
              cases tmime with
              | none => simp [download_file, hm, hsc]
              | some m =>
                  have hrec := ih ⟨t, args.fileName, m⟩ fs tr
                  simpa [download_file, hm, hsc] using hrec
      · have hb := download_body_completed args.mime args.fileName
          (env.sizeMeta args.fileId) (env.chunkTrace args.fileId) fs tr
        simpa [download_file, hm] using hb

theorem runTasks_completed (env : DlEnv) (fuel : Nat) :
    ∀ (tasks : List (DlArgs × FS)) (tr : ProgressTracker),
      ((runTasks env fuel tasks tr).1).completed_files
        = tr.completed_files + (runTasks env fuel tasks tr).2.count true := by
  intro tasks
  induction tasks with
  | nil => intro tr; simp [runTasks]
  | cons t rest ih =>
      intro tr
      rcases t with ⟨args, fs⟩
      have hd := (download_file_completed env fuel args fs tr).1
      simp only [runTasks]
      rw [ih, hd, List.count_cons]
      by_cases hok : (download_file env fuel args fs tr).2.2 = true
      · simp only [hok, if_pos, beq_self_eq_true, if_true]
        omega
      · have hok' : (download_file env fuel args fs tr).2.2 = false :=
          Bool.eq_false_iff.mpr hok
        simp only [hok', Bool.false_eq_true, if_false]
        simp

/-- C9: the completed-file counter is incremented exactly when a download
returns success — success implies the file was published to its final name —
so after any sequence of downloads sharing the tracker, `completed_files`
equals its initial value plus the number of successful downloads; a failed
download never increments it. -/
theorem c9_completed_counts_renames (env : DlEnv) (fuel : Nat) (args : DlArgs)
    (fs : FS) (tr : ProgressTracker) :
    ((download_file env fuel args fs tr).2.1).completed_files
        = tr.completed_files
          + (if (download_file env fuel args fs tr).2.2 then 1 else 0) ∧
    ((download_file env fuel args fs tr).2.2 = true →
      (download_file env fuel args fs tr).1.finalFile.isSome = true) ∧
    ∀ tasks : List (DlArgs × FS),
      ((runTasks env fuel tasks tr).1).completed_files
        = tr.completed_files + (runTasks env fuel tasks tr).2.count true := by
  obtain ⟨h1, h2⟩ := download_file_completed env fuel args fs tr
  exact ⟨h1, h2, fun tasks => runTasks_completed env fuel tasks tr⟩

theorem c9_witness :
    (download_file envW 1 argsW fsW (mkTracker 1)).2.1.completed_files
        = (mkTracker 1).completed_files
          + (if (download_file envW 1 argsW fsW (mkTracker 1)).2.2 then 1 else 0) ∧
    (download_file envW 1 argsW fsW (mkTracker 1)).1.finalFile.isSome = true := by
  have h := c9_completed_counts_renames envW 1 argsW fsW (mkTracker 1)
  exact ⟨h.1, h.2.1 (by decide)⟩

/-- C10: a shortcut whose target lookup fails (raised request or no
`shortcutDetails`) or whose details lack the target id or the target MIME type
makes `download_file` return failure with the filesystem record — directory
creation included — and the tracker completely unchanged. -/
theorem c10_shortcut_failure (env : DlEnv) (fuel : Nat) (args : DlArgs)
    (fs : FS) (tr : ProgressTracker) (hm : args.mime = shortcutMime)
    (hfail : ∀ tid tmime, env.shortcutTarget args.fileId = some (tid, tmime) →
      tid = none ∨ tmime = none) :
    download_file env (fuel + 1) args fs tr = (fs, tr, false) := by
  rcases hsc : env.shortcutTarget args.fileId with _ | ⟨tid, tmime⟩
  · simp [download_file, hm, hsc]
  · rcases hfail tid tmime hsc with rfl | rfl
    · simp [download_file, hm, hsc]
    · cases tid with
      | none => simp [download_file, hm, hsc]
      | some t => simp [download_file, hm, hsc]

theorem c10_witness :
    download_file envW 1 argsWsc fsW (mkTracker 1) = (fsW, mkTracker 1, false) :=
  c10_shortcut_failure envW 0 argsWsc fsW (mkTracker 1) rfl
    (fun tid tmime h => by simp [envW] at h)

